import Mathlib

/-!
# Verification of the YandexMusic2Spotify reconciliation core

Shallow embedding of the track-reconciliation engine of the repository
(`music_transfer.py`, `playlist_updater.py`).  Machine strings are `String`
(lists of characters), Python floats are modelled as exact rationals `ℚ`,
stateful interaction with the Spotify write collaborator is modelled as an
explicit call trace, and fallible collaborators return `Except`.

The similarity scorer of both source files is Python's
`difflib.SequenceMatcher(None, a, b).ratio()`; it is embedded faithfully
below (the `b2j` index with the autojunk popularity cut, the `j2len`
dynamic-programming sweep of `find_longest_match`, the four junk/non-junk
extension loops, the recursive block decomposition of
`get_matching_blocks`, and `_calculate_ratio`).
-/

namespace YM2S

/-! ## difflib.SequenceMatcher -/

/-- The autojunk popularity cut of `SequenceMatcher.__chain_b` (with the
default `autojunk = True`): an element of a `b` of length at least 200
occurring more than `len(b) // 100 + 1` times. -/
def popular (b : List Char) (c : Char) : Prop :=
  200 ≤ b.length ∧ b.length / 100 + 1 < b.count c

instance (b : List Char) (c : Char) : Decidable (popular b c) := by
  unfold popular
  infer_instance

/-- `SequenceMatcher.__chain_b`: the index `b2j` mapping an element of `b`
to the ascending list of its positions in `b`.  `isjunk` is `None` at every
call site of the repository, so `bjunk` is empty; a popular element is
dropped from the index. -/
def b2jList (b : List Char) (c : Char) : List Nat :=
  if popular b c then []
  else (List.range b.length).filter (fun j => b.getD j ' ' == c)

/-- `bjunk` of the matcher: empty, since every `SequenceMatcher` the
repository constructs passes `isjunk = None`. -/
def bjunk (_c : Char) : Bool := false

/-- One cell of the `j2len` sweep: `k = newj2len[j] = j2len.get(j-1, 0) + 1`
(a Python dict lookup at key `-1` misses, hence the guard at `j = 0`). -/
def kOf (j2len : Nat → Nat) (j : Nat) : Nat :=
  (if j = 0 then 0 else j2len (j - 1)) + 1

/-- The new `j2len` dict built while scanning row `i`: it holds a value
exactly at the in-window positions `js` of `a[i]` in `b`. -/
def dpRow (j2len : Nat → Nat) (js : List Nat) : Nat → Nat :=
  fun j => if j ∈ js then kOf j2len j else 0

/-- The `k > bestsize` update of one cell of row `i`. -/
def bestStep (j2len : Nat → Nat) (i : Nat) (bst : Nat × Nat × Nat) (j : Nat) :
    Nat × Nat × Nat :=
  let k := kOf j2len j
  if bst.2.2 < k then (i + 1 - k, j + 1 - k, k) else bst

/-- Scanning row `i` updates `(besti, bestj, bestsize)` cell by cell in
ascending `j` order. -/
def rowBest (j2len : Nat → Nat) (i : Nat) (js : List Nat)
    (bst : Nat × Nat × Nat) : Nat × Nat × Nat :=
  js.foldl (bestStep j2len i) bst

/-- The in-window positions of `a[i]` in `b`: `b2j.get(a[i], [])` with the
`j < blo` / `j >= bhi` skips of the inner loop. -/
def rowJs (a b : List Char) (blo bhi i : Nat) : List Nat :=
  (b2jList b (a.getD i ' ')).filter (fun j => decide (blo ≤ j) && decide (j < bhi))

/-- The `for i in range(alo, ahi)` dynamic-programming sweep of
`find_longest_match`, carrying the `j2len` dict and the running best. -/
def dpAll (a b : List Char) (alo ahi blo bhi : Nat) :
    (Nat → Nat) × (Nat × Nat × Nat) :=
  (List.range' alo (ahi - alo)).foldl
    (fun st i => (dpRow st.1 (rowJs a b blo bhi i),
                  rowBest st.1 i (rowJs a b blo bhi i) st.2))
    (fun _ => 0, (alo, blo, 0))

/-- The leftward extension `while` loops of `find_longest_match`;
`jreq` selects the non-junk (`false`) or junk (`true`) variant.  The loop
decreases `besti` each pass and stops once `besti = alo`, so running it
with `besti` as fuel is exact. -/
def extendLAux (a b : List Char) (alo blo : Nat) (jreq : Bool) :
    Nat → Nat × Nat × Nat → Nat × Nat × Nat
  | 0, bst => bst
  | fuel + 1, (besti, bestj, bestsize) =>
    if alo < besti ∧ blo < bestj ∧ bjunk (b.getD (bestj - 1) ' ') = jreq ∧
        a.getD (besti - 1) ' ' = b.getD (bestj - 1) ' ' then
      extendLAux a b alo blo jreq fuel (besti - 1, bestj - 1, bestsize + 1)
    else (besti, bestj, bestsize)

/-- Left extension entered with fuel `besti`. -/
def extendL (a b : List Char) (alo blo : Nat) (jreq : Bool)
    (bst : Nat × Nat × Nat) : Nat × Nat × Nat :=
  extendLAux a b alo blo jreq bst.1 bst

/-- The rightward extension `while` loops of `find_longest_match`.  The
loop increases `bestsize` each pass and stops once `besti + bestsize = ahi`,
so running it with `ahi` as fuel is exact. -/
def extendRAux (a b : List Char) (ahi bhi : Nat) (jreq : Bool) :
    Nat → Nat × Nat × Nat → Nat × Nat × Nat
  | 0, bst => bst
  | fuel + 1, (besti, bestj, bestsize) =>
    if besti + bestsize < ahi ∧ bestj + bestsize < bhi ∧
        bjunk (b.getD (bestj + bestsize) ' ') = jreq ∧
        a.getD (besti + bestsize) ' ' = b.getD (bestj + bestsize) ' ' then
      extendRAux a b ahi bhi jreq fuel (besti, bestj, bestsize + 1)
    else (besti, bestj, bestsize)

/-- Right extension entered with fuel `ahi`. -/
def extendR (a b : List Char) (ahi bhi : Nat) (jreq : Bool)
    (bst : Nat × Nat × Nat) : Nat × Nat × Nat :=
  extendRAux a b ahi bhi jreq ahi bst

/-- `SequenceMatcher.find_longest_match` on the window
`a[alo:ahi] × b[blo:bhi]`: the `j2len` sweep followed by the four
extension loops (non-junk left, non-junk right, junk left, junk right). -/
def find_longest_match (a b : List Char) (alo ahi blo bhi : Nat) :
    Nat × Nat × Nat :=
  extendR a b ahi bhi true
    (extendL a b alo blo true
      (extendR a b ahi bhi false
        (extendL a b alo blo false
          (dpAll a b alo ahi blo bhi).2)))

/-- Total matched size over `get_matching_blocks`: the recursive
divide-and-conquer around each longest match.  The Python version drives
the recursion through an explicit queue, which visits exactly the same
windows; only the sum of the block sizes is needed by `ratio`.  `fuel`
bounds the recursion depth and is chosen large enough at the single call
site. -/
def matchTotalAux (a b : List Char) : Nat → Nat → Nat → Nat → Nat → Nat
  | _, _, _, _, 0 => 0
  | alo, ahi, blo, bhi, fuel + 1 =>
    match find_longest_match a b alo ahi blo bhi with
    | (i, j, k) =>
      if k = 0 then 0
      else
        (if alo < i ∧ blo < j then matchTotalAux a b alo i blo j fuel else 0) +
        k +
        (if i + k < ahi ∧ j + k < bhi then matchTotalAux a b (i + k) ahi (j + k) bhi fuel else 0)

/-- `matches = sum(triple[-1] for triple in self.get_matching_blocks())`. -/
def matchTotal (a b : List Char) : Nat :=
  matchTotalAux a b 0 a.length 0 b.length (a.length + b.length + 1)

/-- `SequenceMatcher(None, a, b).ratio()`:
`2.0 * M / T` where `T = len(a) + len(b)`, and `1.0` when `T = 0`
(`difflib._calculate_ratio`). -/
def ratioQ (sa sb : String) : ℚ :=
  let a := sa.data
  let b := sb.data
  if a.length + b.length = 0 then 1
  else 2 * (matchTotal a b : ℚ) / ((a.length : ℚ) + (b.length : ℚ))

/-- Proof helper for the self-similarity analysis: the length of the
maximal run of non-popular characters of `a` ending at index `i`. -/
def runEnd (a : List Char) : Nat → Nat
  | 0 => if popular a (a.getD 0 ' ') then 0 else 1
  | i + 1 => if popular a (a.getD (i + 1) ' ') then 0 else runEnd a i + 1

/-- Proof helper: the invariant of the `j2len` sweep of
`find_longest_match` on the pair `(a, a)` over the full window, after `m`
rows.  The running best block sits on the diagonal, fits in the string,
and dominates every non-popular run seen so far; every `j2len` entry is
bounded by the run ending at its column and by the run ending at the last
processed row, where it is exact on the diagonal. -/
def selfInv (a : List Char) (m : Nat) (st : (Nat → Nat) × (Nat × Nat × Nat)) : Prop :=
  st.2.1 = st.2.2.1 ∧
  st.2.1 + st.2.2.2 ≤ a.length ∧
  (∀ i', i' < m → runEnd a i' ≤ st.2.2.2) ∧
  (∀ j, st.1 j ≤ runEnd a j) ∧
  (∀ j, st.1 j ≤ (if m = 0 then 0 else runEnd a (m - 1))) ∧
  (m ≠ 0 → st.1 (m - 1) = runEnd a (m - 1))

/-! ## Data model -/

/-- A track descriptor as both source files build it: a dict with a title,
a single flattened artist string (multiple performers joined by `", "`
upstream), and an album.  The opaque per-service ids play no role in any
comparison and are omitted. -/
structure Track where
  title : String
  artist : String
  album : String
deriving DecidableEq, Repr

/-- A Spotify search-result item as `_find_best_match` reads it:
`track['name']`, the names of `track['artists']`, and `track['uri']`. -/
structure Candidate where
  name : String
  artists : List String
  uri : String
deriving DecidableEq, Repr

/-! ## playlist_updater.normalize_track_info -/

/-- Python `str.lower()`: per-character lowering (exact on the ASCII range
this development evaluates on). -/
def pyLower (s : String) : String := ⟨s.data.map Char.toLower⟩

/-- Python `str.strip()`: drop whitespace from both ends. -/
def pyStrip (s : String) : String :=
  ⟨((s.data.dropWhile Char.isWhitespace).reverse.dropWhile Char.isWhitespace).reverse⟩

/-- Python `re` word characters (`\w`), on the ASCII range the repository's
regexes are exercised on here: alphanumerics and the underscore. -/
def pyWordChar (c : Char) : Bool := c.isAlphanum || c == '_'

/-- `re.sub(r'[^\w\s]', '', s)`: drop every character that is neither a
word character nor whitespace. -/
def subNonWordChars (s : String) : String :=
  ⟨s.data.filter (fun c => pyWordChar c || c.isWhitespace)⟩

/-- `re.sub(r'\s+', ' ', s)` on a character list: every maximal run of
whitespace becomes one space.  `prevWS` records whether the previous
character belonged to a whitespace run already emitted as `' '`. -/
def collapseRunsAux (prevWS : Bool) : List Char → List Char
  | [] => []
  | c :: cs =>
    if c.isWhitespace then
      if prevWS then collapseRunsAux true cs
      else ' ' :: collapseRunsAux true cs
    else c :: collapseRunsAux false cs

/-- `re.sub(r'\s+', ' ', s)`. -/
def subSpaceRuns (s : String) : String := ⟨collapseRunsAux false s.data⟩

/-- `PlaylistUpdater.normalize_track_info(title, artist)`: lower-case and
strip each field, drop the non-word non-space characters, collapse
whitespace runs, and join as `f"{normalized_artist} - {normalized_title}"`. -/
def normalize_track_info (title artist : String) : String :=
  let normalized_title := pyStrip (pyLower title)
  let normalized_artist := pyStrip (pyLower artist)
  let normalized_title := subNonWordChars normalized_title
  let normalized_artist := subNonWordChars normalized_artist
  let normalized_title := subSpaceRuns normalized_title
  let normalized_artist := subSpaceRuns normalized_artist
  normalized_artist ++ " - " ++ normalized_title

/-- The per-field pipeline exactly as the C6 claim words it (for
comparison with the code): lower-case, strip all characters that are not
alphanumeric or whitespace, collapse whitespace runs to a single space,
trim leading/trailing whitespace. -/
def claimFieldC6 (s : String) : String :=
  pyStrip (subSpaceRuns ⟨(pyLower s).data.filter (fun c => c.isAlphanum || c.isWhitespace)⟩)

/-- The normalized key as the C6 claim describes it. -/
def claimNormalizeC6 (title artist : String) : String :=
  claimFieldC6 artist ++ " - " ++ claimFieldC6 title

/-- The per-field pipeline the code actually runs (the amended C6):
lower-case, trim, then strip every character that is neither a word
character (alphanumeric or underscore) nor whitespace, then collapse
whitespace runs to a single space — with no final trim. -/
def amendedFieldC6 (s : String) : String :=
  subSpaceRuns (subNonWordChars (pyStrip (pyLower s)))

/-! ## playlist_updater.is_track_similar / find_missing_tracks -/

/-- `PlaylistUpdater.is_track_similar(track1, track2, similarity_threshold=0.85)`:
one `SequenceMatcher` ratio over the two normalized keys, compared with
`>=` against the threshold. -/
def is_track_similar (track1 track2 : Track) (similarity_threshold : ℚ := 17/20) :
    Bool :=
  let normalized1 := normalize_track_info track1.title track1.artist
  let normalized2 := normalize_track_info track2.title track2.artist
  decide (similarity_threshold ≤ ratioQ normalized1 normalized2)

/-- `PlaylistUpdater.find_missing_tracks(yandex_tracks, spotify_tracks)`:
a Yandex track is appended to `missing_tracks` unless some Spotify track of
the playlist is similar to it (the inner scan stops at the first hit, which
is observationally `List.any`). -/
def find_missing_tracks (yandex_tracks spotify_tracks : List Track) : List Track :=
  yandex_tracks.foldl
    (fun missing_tracks yandex_track =>
      if spotify_tracks.any (fun spotify_track =>
          is_track_similar yandex_track spotify_track) then
        missing_tracks
      else missing_tracks ++ [yandex_track])
    []

/-! ## music_transfer._find_best_match -/

/-- Python `max(l, default=d)`. -/
def pymax (l : List ℚ) (dflt : ℚ) : ℚ :=
  match l with
  | [] => dflt
  | x :: xs => xs.foldl max x

/-- The per-candidate score of `_find_best_match`:
`title_similarity * 0.7 + artist_similarity * 0.3`, where the artist part
is the best ratio against any of the candidate's artists and `0` when the
candidate lists none. -/
def total_score (target_title target_artist : String) (track : Candidate) : ℚ :=
  let title_similarity := ratioQ (pyLower target_title) (pyLower track.name)
  let track_artists := track.artists.map pyLower
  let artist_similarity :=
    pymax (track_artists.map (fun artist => ratioQ (pyLower target_artist) artist)) 0
  title_similarity * (7/10) + artist_similarity * (3/10)

/-- One iteration of the `for track in candidates` loop: the best is
replaced only when `total_score > best_score and total_score > 0.6`. -/
def fbmStep (target_title target_artist : String)
    (st : ℚ × Option Candidate) (track : Candidate) : ℚ × Option Candidate :=
  let ts := total_score target_title target_artist track
  if ts > st.1 ∧ ts > 3/5 then (ts, some track) else st

/-- `MusicTransfer._find_best_match(target_title, target_artist, candidates)`:
fold the strict-improvement update over the candidates, starting from
`best_score = 0`, `best_match = None`. -/
def find_best_match (target_title target_artist : String)
    (candidates : List Candidate) : Option Candidate :=
  (candidates.foldl (fbmStep target_title target_artist) (0, none)).2

/-! ## music_transfer.search_spotify_track -/

/-- The query ladder of `search_spotify_track`, after the `if q` filter
that drops the `None` placeholder (each kept query is a non-empty string). -/
def searchQueries (title artist : String) : List String :=
  let q1 := "track:\"" ++ title ++ "\" artist:\"" ++ artist ++ "\""
  let q2 := "\"" ++ title ++ "\" \"" ++ artist ++ "\""
  let q3 := title ++ " " ++ artist
  if title.length > 3 then [q1, q2, q3, "track:\"" ++ title ++ "\""] else [q1, q2, q3]

/-- The `for query in search_queries` body, inside the `try`: the Spotify
search collaborator `api` may raise (`.error`); a non-empty result list is
ranked with `_find_best_match` and a hit returns its URI, otherwise the
next query is tried; exhaustion returns `None`. -/
def trySearch (api : String → Except String (List Candidate))
    (title artist : String) : List String → Except String (Option String)
  | [] => .ok none
  | query :: rest =>
    match api query with
    | .error e => .error e
    | .ok items =>
      if items.isEmpty then trySearch api title artist rest
      else
        match find_best_match title artist items with
        | some best => .ok (some best.uri)
        | none => trySearch api title artist rest

/-- `MusicTransfer.search_spotify_track(title, artist, album='')`: the
query ladder under the enclosing `try`/`except` that turns any raised
error into `None`. -/
def search_spotify_track (api : String → Except String (List Candidate))
    (title artist : String) : Option String :=
  match trySearch api title artist (searchQueries title artist) with
  | .ok result => result
  | .error _ => none

/-! ## The per-track resolution loop of transfer_playlist /
update_playlist_from_yandex -/

/-- The search loop shared verbatim by `transfer_playlist`
(`music_transfer.py:249-264`) and `update_playlist_from_yandex`
(`playlist_updater.py:313-330`): each track is looked up once; a hit
appends the URI to the resolved list, a miss appends the track to
`not_found_tracks`; both lists keep the input order. -/
def resolveTracks (search : Track → Option String) :
    List Track → List String × List Track
  | [] => ([], [])
  | t :: ts =>
    let rest := resolveTracks search ts
    match search t with
    | some uri => (uri :: rest.1, rest.2)
    | none => (rest.1, t :: rest.2)

/-! ## Batched apply (create_spotify_playlist / update_spotify_playlist) -/

/-- The chunking loop, driven by a fuel that the wrapper sets to the list
length (the loop consumes at least one element per chunk, so this fuel is
never exhausted before the list is). -/
def makeBatchesAux : Nat → List String → List (List String)
  | _, [] => []
  | 0, _ :: _ => []
  | fuel + 1, x :: xs =>
    ((x :: xs).take 100) :: makeBatchesAux fuel ((x :: xs).drop 100)

/-- `for i in range(0, len(tracks), batch_size): batch = tracks[i:i + batch_size]`
with the hard-coded `batch_size = 100` of both call sites. -/
def makeBatches (tracks : List String) : List (List String) :=
  makeBatchesAux tracks.length tracks

/-- Driving the batch loop against a write collaborator that raises on the
call with index `k` whenever `fail k` is true: returns the batches actually
written, the number of `playlist_add_items` calls made, and whether the
loop ran to completion.  A raise stops the loop at once (the remaining
batches are neither written nor attempted), and nothing already written is
undone. -/
def runBatchesAux (fail : Nat → Bool) : Nat → List (List String) →
    List (List String) × Nat × Bool
  | _, [] => ([], 0, true)
  | k, batch :: rest =>
    if fail k then ([], 1, false)
    else
      let r := runBatchesAux fail (k + 1) rest
      (batch :: r.1, r.2.1 + 1, r.2.2)

/-- `MusicTransfer.create_spotify_playlist` batch phase: every resolved
URI is written in order in chunks of 100; an error propagates to the
caller (the `except` re-`raise`s), modelled by the final `Bool`. -/
def create_spotify_playlist (fail : Nat → Bool) (tracks : List String) :
    List (List String) × Nat × Bool :=
  runBatchesAux fail 0 (makeBatches tracks)

/-- `PlaylistUpdater.update_spotify_playlist(playlist_id, new_tracks)`:
empty input short-circuits to `True` with no write call; otherwise the
100-chunk loop runs and any raise is caught and returned as `False`.
The call trace (written batches, number of write calls) is made explicit. -/
def update_spotify_playlist (fail : Nat → Bool) (new_tracks : List String) :
    Bool × List (List String) × Nat :=
  if new_tracks.isEmpty then (true, [], 0)
  else
    let r := runBatchesAux fail 0 (makeBatches new_tracks)
    (r.2.2, r.1, r.2.1)

/-! ## Lemmas about the batching loop -/

lemma makeBatchesAux_flatten :
    ∀ (fuel : Nat) (l : List String), l.length ≤ fuel →
      (makeBatchesAux fuel l).flatten = l := by
  intro fuel
  induction fuel with
  | zero =>
    intro l hl
    have : l = [] := List.eq_nil_of_length_eq_zero (Nat.le_zero.mp hl)
    subst this
    rfl
  | succ n ih =>
    intro l hl
    cases l with
    | nil => rfl
    | cons x xs =>
      rw [makeBatchesAux, List.flatten_cons, ih _ ?_, List.take_append_drop]
      have : ((x :: xs).drop 100).length = (x :: xs).length - 100 := by
        simp
      rw [this]
      simp only [List.length_cons] at hl ⊢
      omega

lemma makeBatchesAux_mem :
    ∀ (fuel : Nat) (l : List String) (b : List String),
      b ∈ makeBatchesAux fuel l → b.length ≤ 100 ∧ b ≠ [] := by
  intro fuel
  induction fuel with
  | zero =>
    intro l b hb
    cases l <;> simp [makeBatchesAux] at hb
  | succ n ih =>
    intro l b hb
    cases l with
    | nil => simp [makeBatchesAux] at hb
    | cons x xs =>
      rw [makeBatchesAux] at hb
      rcases List.mem_cons.mp hb with h | h
      · subst h
        constructor
        · simp
        · simp [List.take_cons]
      · exact ih _ _ h

lemma makeBatches_flatten (tracks : List String) :
    (makeBatches tracks).flatten = tracks :=
  makeBatchesAux_flatten tracks.length tracks (Nat.le_refl _)

lemma makeBatches_mem (tracks : List String) (b : List String)
    (hb : b ∈ makeBatches tracks) : b.length ≤ 100 ∧ b ≠ [] :=
  makeBatchesAux_mem tracks.length tracks b hb

/-- The batch loop against a writer failing first at (relative) index `k`:
everything before `k` is written, the `k`-th call raises, nothing further
is attempted. -/
lemma runBatchesAux_fail :
    ∀ (bs : List (List String)) (fail : Nat → Bool) (base k : Nat),
      k < bs.length → fail (base + k) = true → (∀ j < k, fail (base + j) = false) →
      runBatchesAux fail base bs = (bs.take k, k + 1, false) := by
  intro bs
  induction bs with
  | nil =>
    intro fail base k hk
    simp at hk
  | cons b rest ih =>
    intro fail base k hk hfk hbefore
    cases k with
    | zero =>
      rw [runBatchesAux, if_pos (by simpa using hfk)]
      simp
    | succ m =>
      have h0 : fail base = false := by simpa using hbefore 0 (Nat.succ_pos m)
      rw [runBatchesAux, if_neg (by simp [h0])]
      rw [ih fail (base + 1) m (by simpa using hk)
            (by have : base + 1 + m = base + (m + 1) := by omega
                rw [this]; exact hfk)
            (fun j hj => by
              have : base + 1 + j = base + (j + 1) := by omega
              rw [this]; exact hbefore (j + 1) (by omega))]
      simp

/-- The batch loop against a writer that never fails writes everything,
one call per batch. -/
lemma runBatchesAux_ok :
    ∀ (bs : List (List String)) (fail : Nat → Bool) (base : Nat),
      (∀ j, fail j = false) →
      runBatchesAux fail base bs = (bs, bs.length, true) := by
  intro bs
  induction bs with
  | nil => intro fail base _; rfl
  | cons b rest ih =>
    intro fail base hok
    rw [runBatchesAux, if_neg (by simp [hok])]
    simp [ih fail (base + 1) hok]

/-! ## Lemmas about the resolution loop -/

/-- The search loop resolves each track independently: the resolved list
is the in-order image of the successful lookups, the unresolved list the
in-order list of failing tracks. -/
lemma resolveTracks_eq (search : Track → Option String) :
    ∀ ts : List Track,
      resolveTracks search ts =
        (ts.filterMap search, ts.filter (fun t => (search t).isNone)) := by
  intro ts
  induction ts with
  | nil => rfl
  | cons t rest ih =>
    rw [resolveTracks, ih]
    cases h : search t with
    | none => simp [List.filterMap_cons, List.filter_cons, h]
    | some u => simp [List.filterMap_cons, List.filter_cons, h]

/-! ## Helpers for evaluating concrete similarity scores -/

/-- Evaluate `ratioQ` from kernel-computed `Nat` data (the `ℚ` operations
themselves are not kernel-reducible, the `Nat` ones are). -/
lemma ratioQ_eval (sa sb : String) (m la lb : Nat)
    (hm : matchTotal sa.data sb.data = m)
    (hla : sa.data.length = la) (hlb : sb.data.length = lb)
    (hpos : 0 < la + lb) :
    ratioQ sa sb = 2 * (m : ℚ) / ((la : ℚ) + (lb : ℚ)) := by
  simp only [ratioQ, hm, hla, hlb]
  rw [if_neg (by omega)]

lemma find_best_match_single (tt ta : String) (c : Candidate)
    (h : total_score tt ta c > 3/5) :
    find_best_match tt ta [c] = some c := by
  unfold find_best_match
  simp only [List.foldl_cons, List.foldl_nil, fbmStep]
  rw [if_pos ⟨lt_trans (by norm_num) h, h⟩]

lemma searchQueries_ne_nil (title artist : String) :
    searchQueries title artist ≠ [] := by
  unfold searchQueries
  split <;> simp

/-- A search collaborator that answers every query with the single
candidate `c` resolves any target scoring above the cutoff to `c.uri`. -/
lemma search_single (c : Candidate) (title artist : String)
    (h : total_score title artist c > 3/5) :
    search_spotify_track (fun _ => .ok [c]) title artist = some c.uri := by
  obtain ⟨q, rest, hq⟩ : ∃ q rest, searchQueries title artist = q :: rest := by
    cases hl : searchQueries title artist with
    | nil => exact absurd hl (searchQueries_ne_nil _ _)
    | cons q rest => exact ⟨q, rest, rfl⟩
  unfold search_spotify_track
  rw [hq, trySearch]
  simp only [List.isEmpty_cons, Bool.false_eq_true, if_false,
    find_best_match_single title artist c h]

/-! ## C10: empty update is a success with no writes -/

/-- **C10** Calling `update_spotify_playlist` with an empty list of new
references returns `True`, performs zero write calls, and applies no
batch, leaving the playlist unchanged. -/
theorem C10_empty_update (fail : Nat → Bool) :
    update_spotify_playlist fail [] = (true, [], 0) := rfl

/-! ## C7: the batched apply groups into ordered chunks of at most 100 -/

set_option maxRecDepth 8000 in
/-- **C7** The batched apply splits the resolved references into
consecutive chunks of at most 100 in input order (flattening the chunks
restores the input, and every chunk is non-empty with at most 100
entries), and applies them strictly in order; 250 references produce
exactly 3 writer calls of sizes 100, 100, 50, in that order, in both
`create_spotify_playlist` and `update_spotify_playlist`. -/
theorem C7_batching :
    (∀ tracks : List String,
        (makeBatches tracks).flatten = tracks ∧
        ∀ b ∈ makeBatches tracks, b.length ≤ 100 ∧ b ≠ []) ∧
    create_spotify_playlist (fun _ => false) (List.replicate 250 "uri") =
      (makeBatches (List.replicate 250 "uri"), 3, true) ∧
    update_spotify_playlist (fun _ => false) (List.replicate 250 "uri") =
      (true, makeBatches (List.replicate 250 "uri"), 3) ∧
    (makeBatches (List.replicate 250 "uri")).map List.length = [100, 100, 50] := by
  have hlen : (makeBatches (List.replicate 250 "uri")).length = 3 := by decide
  have hok := runBatchesAux_ok (makeBatches (List.replicate 250 "uri"))
    (fun _ => false) 0 (fun _ => rfl)
  refine ⟨fun tracks => ⟨makeBatches_flatten tracks, fun b hb => makeBatches_mem tracks b hb⟩,
    ?_, ?_, by decide⟩
  · unfold create_spotify_playlist
    rw [hok, hlen]
  · unfold update_spotify_playlist
    rw [if_neg (by decide)]
    simp only [hok, hlen]

/-- Closed instance of C7. -/
theorem C7_witness : (makeBatches ["a", "b"]).flatten = ["a", "b"] :=
  (C7_batching.1 ["a", "b"]).1

/-! ## C9: a failing batch write aborts the run, keeps earlier batches -/

/-- **C9** If the write collaborator raises on call `k` of the batch loop
(and not earlier), then in both orchestrations the batches before `k`
remain applied, exactly `k + 1` write calls are made (so no batch after
`k` is attempted and the failing batch is not retried), and the error is
surfaced: `create_spotify_playlist` propagates it, `update_spotify_playlist`
returns `False`.  Nothing already applied is rolled back. -/
theorem C9_batch_write_failure (fail : Nat → Bool) (tracks : List String) (k : Nat)
    (hk : k < (makeBatches tracks).length) (hfail : fail k = true)
    (hbefore : ∀ j < k, fail j = false) :
    create_spotify_playlist fail tracks = ((makeBatches tracks).take k, k + 1, false) ∧
    update_spotify_playlist fail tracks = (false, (makeBatches tracks).take k, k + 1) := by
  have hrun := runBatchesAux_fail (makeBatches tracks) fail 0 k hk
    (by simpa using hfail) (fun j hj => by simpa using hbefore j hj)
  have htr : tracks ≠ [] := by
    intro hnil
    subst hnil
    simp [makeBatches, makeBatchesAux] at hk
  refine ⟨?_, ?_⟩
  · unfold create_spotify_playlist
    rw [hrun]
  · unfold update_spotify_playlist
    rw [if_neg (by simpa using htr)]
    simp only [hrun]

set_option maxRecDepth 8000 in
/-- Closed instance of C9: 101 references, second write call fails. -/
theorem C9_witness :
    update_spotify_playlist (fun k => decide (k = 1)) (List.replicate 101 "u") =
      (false, (makeBatches (List.replicate 101 "u")).take 1, 2) :=
  (C9_batch_write_failure (fun k => decide (k = 1)) (List.replicate 101 "u") 1
    (by decide) (by decide)
    (fun j hj => by
      have : j = 0 := by omega
      subst this
      decide)).2

/-! ## C2: find_missing_tracks is the similarity-filtered source list -/

lemma find_missing_foldl (dst : List Track) :
    ∀ (src : List Track) (acc : List Track),
      src.foldl
        (fun missing_tracks yandex_track =>
          if dst.any (fun spotify_track =>
              is_track_similar yandex_track spotify_track) then
            missing_tracks
          else missing_tracks ++ [yandex_track]) acc
        = acc ++ src.filter
            (fun y => !(dst.any (fun s => is_track_similar y s))) := by
  intro src
  induction src with
  | nil => intro acc; simp
  | cons y rest ih =>
    intro acc
    by_cases h : dst.any (fun s => is_track_similar y s) = true
    · simp only [List.foldl_cons, if_pos h, ih, List.filter_cons, h]
      simp
    · have hb : (dst.any (fun s => is_track_similar y s)) = false :=
        Bool.not_eq_true _ ▸ Bool.of_not_eq_true h
      simp only [List.foldl_cons, if_neg h, ih, List.filter_cons, hb]
      simp

/-- **C2** `find_missing_tracks` returns exactly those source tracks for
which no destination track is similar (similar: the ratio of the two
normalized keys meets or exceeds the 0.85 threshold), as an
order-preserving subsequence of the source list. -/
theorem C2_find_missing_tracks (src dst : List Track) :
    find_missing_tracks src dst =
      src.filter (fun y => !(dst.any (fun s => is_track_similar y s))) ∧
    (find_missing_tracks src dst).Sublist src ∧
    (∀ t, t ∈ find_missing_tracks src dst ↔
      t ∈ src ∧ ∀ d ∈ dst,
        ¬(17/20 ≤ ratioQ (normalize_track_info t.title t.artist)
            (normalize_track_info d.title d.artist))) := by
  have he : find_missing_tracks src dst =
      src.filter (fun y => !(dst.any (fun s => is_track_similar y s))) := by
    unfold find_missing_tracks
    simpa using find_missing_foldl dst src []
  refine ⟨he, he ▸ List.filter_sublist _, fun t => ?_⟩
  rw [he, List.mem_filter]
  simp only [Bool.not_eq_true', List.any_eq_false, is_track_similar,
    decide_eq_false_iff_not, decide_eq_true_eq]

/-- Closed instance of C2. -/
theorem C2_witness :
    (find_missing_tracks [⟨"a", "b", ""⟩] []).Sublist [(⟨"a", "b", ""⟩ : Track)] :=
  (C2_find_missing_tracks [⟨"a", "b", ""⟩] []).2.1

/-! ## C8: a raising per-track search is absorbed, the run continues -/

/-- **C8** A raised error during the search for one track makes
`search_spotify_track` return `None`; in the resolution loop that track
is appended to the unresolved list and every remaining track is still
processed — a per-track search failure never aborts the run. -/
theorem C8_search_failure_absorbed :
    (∀ (api : String → Except String (List Candidate)) (title artist e : String),
        trySearch api title artist (searchQueries title artist) = .error e →
        search_spotify_track api title artist = none) ∧
    (∀ (search : Track → Option String) (pre post : List Track) (t : Track),
        search t = none →
        resolveTracks search (pre ++ t :: post) =
          ((resolveTracks search pre).1 ++ (resolveTracks search post).1,
           (resolveTracks search pre).2 ++ t :: (resolveTracks search post).2)) := by
  constructor
  · intro api title artist e he
    unfold search_spotify_track
    rw [he]
  · intro search pre post t ht
    simp only [resolveTracks_eq, List.filterMap_append, List.filter_append,
      List.filterMap_cons, List.filter_cons, ht, Option.isNone_none]
    simp

/-- Closed instance of C8: a collaborator that always raises. -/
theorem C8_witness :
    search_spotify_track (fun _ => .error "boom") "a" "b" = none ∧
    resolveTracks (fun _ => none) [⟨"a", "b", ""⟩] = ([], [⟨"a", "b", ""⟩]) := by
  constructor
  · exact C8_search_failure_absorbed.1 (fun _ => .error "boom") "a" "b" "boom" rfl
  · simpa using C8_search_failure_absorbed.2 (fun _ => none) [] [] ⟨"a", "b", ""⟩ rfl

/-! ## C4: duplicate resolved references are possible (claim corrected) -/

/-- **C4 counterexample** Two distinct source tracks can resolve to the
same destination reference, so `resolvedReferences` can contain a
duplicate: with a search collaborator answering every query with the one
candidate `⟨"ab", ["x"], "u"⟩`, the distinct targets `"ab"` and `"abc"`
(artist `"x"`) both score above 0.6 against it, and the run hands
`["u", "u"]` to the batched apply. -/
theorem C4_cex :
    ((⟨"ab", "x", ""⟩ : Track) ≠ ⟨"abc", "x", ""⟩) ∧
    (resolveTracks
        (fun t => search_spotify_track (fun _ => .ok [⟨"ab", ["x"], "u"⟩]) t.title t.artist)
        [⟨"ab", "x", ""⟩, ⟨"abc", "x", ""⟩]).1 = ["u", "u"] ∧
    ¬ (resolveTracks
        (fun t => search_spotify_track (fun _ => .ok [⟨"ab", ["x"], "u"⟩]) t.title t.artist)
        [⟨"ab", "x", ""⟩, ⟨"abc", "x", ""⟩]).1.Pairwise (· ≠ ·) := by
  have hxx : ratioQ (pyLower "x") (pyLower "x") = 1 := by
    rw [ratioQ_eval (pyLower "x") (pyLower "x") 1 1 1 (by decide) (by decide) (by decide)
      (by norm_num)]
    norm_num
  have hab : ratioQ (pyLower "ab") (pyLower "ab") = 1 := by
    rw [ratioQ_eval (pyLower "ab") (pyLower "ab") 2 2 2 (by decide) (by decide) (by decide)
      (by norm_num)]
    norm_num
  have habc : ratioQ (pyLower "abc") (pyLower "ab") = 4/5 := by
    rw [ratioQ_eval (pyLower "abc") (pyLower "ab") 2 3 2 (by decide) (by decide) (by decide)
      (by norm_num)]
    norm_num
  have hts1 : total_score "ab" "x" ⟨"ab", ["x"], "u"⟩ = 1 := by
    simp only [total_score, List.map_cons, List.map_nil, pymax, List.foldl_nil,
      hab, hxx]
    norm_num
  have hts2 : total_score "abc" "x" ⟨"ab", ["x"], "u"⟩ = 43/50 := by
    simp only [total_score, List.map_cons, List.map_nil, pymax, List.foldl_nil,
      habc, hxx]
    norm_num
  have hs1 : search_spotify_track (fun _ => .ok [⟨"ab", ["x"], "u"⟩]) "ab" "x" = some "u" :=
    search_single ⟨"ab", ["x"], "u"⟩ "ab" "x" (by rw [hts1]; norm_num)
  have hs2 : search_spotify_track (fun _ => .ok [⟨"ab", ["x"], "u"⟩]) "abc" "x" = some "u" :=
    search_single ⟨"ab", ["x"], "u"⟩ "abc" "x" (by rw [hts2]; norm_num)
  refine ⟨by decide, ?_, ?_⟩
  · simp only [resolveTracks, hs1, hs2]
  · simp only [resolveTracks, hs1, hs2]
    decide

/-- **C4 (amended)** In one run the apply list gets exactly one reference
per resolved source track, in source order (it is the in-order list of
successful lookups and the unresolved list the in-order list of failed
ones, and their lengths sum to the input length); references are not
deduplicated across source tracks. -/
theorem C4_amended (search : Track → Option String) (ts : List Track) :
    (resolveTracks search ts).1 = ts.filterMap search ∧
    (resolveTracks search ts).2 = ts.filter (fun t => (search t).isNone) ∧
    (resolveTracks search ts).1.length + (resolveTracks search ts).2.length
      = ts.length := by
  refine ⟨by rw [resolveTracks_eq], by rw [resolveTracks_eq], ?_⟩
  induction ts with
  | nil => rfl
  | cons t rest ih =>
    simp only [resolveTracks]
    cases h : search t with
    | none => simp only [h, List.length_cons]; omega
    | some u => simp only [h, List.length_cons]; omega

/-! ## C6: the normalizer (claim corrected) -/

lemma collapseRunsAux_mem :
    ∀ (l : List Char) (flag : Bool) (c : Char), c ∈ collapseRunsAux flag l →
      c = ' ' ∨ (c ∈ l ∧ c.isWhitespace = false) := by
  intro l
  induction l with
  | nil => intro flag c hc; simp [collapseRunsAux] at hc
  | cons x xs ih =>
    intro flag c hc
    by_cases hx : x.isWhitespace
    · rw [collapseRunsAux, if_pos hx] at hc
      cases flag with
      | true =>
        rcases ih true c hc with h | ⟨hm, hw⟩
        · exact Or.inl h
        · exact Or.inr ⟨List.mem_cons_of_mem x hm, hw⟩
      | false =>
        rcases List.mem_cons.mp hc with h | h
        · exact Or.inl h
        · rcases ih true c h with h' | ⟨hm, hw⟩
          · exact Or.inl h'
          · exact Or.inr ⟨List.mem_cons_of_mem x hm, hw⟩
    · rw [collapseRunsAux, if_neg hx] at hc
      rcases List.mem_cons.mp hc with h | h
      · subst h
        exact Or.inr ⟨List.mem_cons_self _ _, Bool.not_eq_true _ ▸ Bool.of_not_eq_true hx⟩
      · rcases ih false c h with h' | ⟨hm, hw⟩
        · exact Or.inl h'
        · exact Or.inr ⟨List.mem_cons_of_mem x hm, hw⟩

lemma collapseRunsAux_head_true :
    ∀ (l : List Char) (c : Char), (collapseRunsAux true l).head? = some c →
      c.isWhitespace = false := by
  intro l
  induction l with
  | nil => intro c hc; simp [collapseRunsAux] at hc
  | cons x xs ih =>
    intro c hc
    by_cases hx : x.isWhitespace
    · rw [collapseRunsAux, if_pos hx] at hc
      exact ih c hc
    · rw [collapseRunsAux, if_neg hx] at hc
      simp only [List.head?_cons, Option.some.injEq] at hc
      subst hc
      exact Bool.not_eq_true _ ▸ Bool.of_not_eq_true hx

/-- After collapsing, no two adjacent characters are both whitespace. -/
lemma collapseRunsAux_chain :
    ∀ (l : List Char) (flag : Bool),
      List.Chain' (fun x y => ¬(x.isWhitespace ∧ y.isWhitespace))
        (collapseRunsAux flag l) := by
  intro l
  induction l with
  | nil => intro flag; simp [collapseRunsAux]
  | cons x xs ih =>
    intro flag
    by_cases hx : x.isWhitespace
    · rw [collapseRunsAux, if_pos hx]
      cases flag with
      | true => exact ih true
      | false =>
        refine List.chain'_cons'.mpr ⟨?_, ih true⟩
        intro y hy hcon
        have := collapseRunsAux_head_true xs y hy
        rw [this] at hcon
        exact Bool.false_ne_true hcon.2
    · rw [collapseRunsAux, if_neg hx]
      refine List.chain'_cons'.mpr ⟨?_, ih false⟩
      intro y _ hcon
      exact hx hcon.1

/-- **C6 counterexample** On `title = "a_b !"`, `artist = "c"` the code
returns `"c - a_b "`: the underscore survives (Python's `\w` keeps it, so
it is not "stripped as non-alphanumeric"), and the whitespace exposed by
deleting `'!'` is not trimmed (the code trims before stripping, not
after); the claim's pipeline would give `"c - ab"`. -/
theorem C6_cex :
    normalize_track_info "a_b !" "c" = "c - a_b " ∧
    claimNormalizeC6 "a_b !" "c" = "c - ab" ∧
    normalize_track_info "a_b !" "c" ≠ claimNormalizeC6 "a_b !" "c" := by
  refine ⟨by decide, by decide, by decide⟩

/-- **C6 (amended)** `normalize_track_info` returns
`"{artist} - {title}"` where each field is lower-cased, trimmed of
leading/trailing whitespace, then stripped of every character that is
neither a word character (alphanumeric or underscore) nor whitespace,
then has whitespace runs collapsed to a single space (whitespace newly
exposed at the edges by the stripping is collapsed but not trimmed).  It
never fails: every field's output consists of word characters and
non-adjacent single spaces, and empty inputs yield `" - "`. -/
theorem C6_amended (title artist : String) :
    normalize_track_info title artist =
      amendedFieldC6 artist ++ " - " ++ amendedFieldC6 title ∧
    (∀ s : String, ∀ c ∈ (amendedFieldC6 s).data, pyWordChar c = true ∨ c = ' ') ∧
    (∀ s : String, List.Chain' (fun x y => ¬(x.isWhitespace ∧ y.isWhitespace))
        (amendedFieldC6 s).data) ∧
    normalize_track_info "" "" = " - " := by
  refine ⟨rfl, ?_, ?_, by decide⟩
  · intro s c hc
    rcases collapseRunsAux_mem _ false c hc with h | ⟨hm, hw⟩
    · exact Or.inr h
    · rcases List.mem_filter.mp hm with ⟨_, hp⟩
      rcases Bool.or_eq_true_iff.mp hp with h' | h'
      · exact Or.inl h'
      · simp [h'] at hw
  · intro s
    exact collapseRunsAux_chain _ false

/-- Closed instance of the amended C6. -/
theorem C6_witness :
    normalize_track_info "Tide (Live)" "X" =
      amendedFieldC6 "X" ++ " - " ++ amendedFieldC6 "Tide (Live)" :=
  (C6_amended "Tide (Live)" "X").1

/-! ## Self-similarity of the matcher: `ratioQ s s = 1`

The sweep of `find_longest_match` on `(a, a)` keeps its running best on
the diagonal (an off-diagonal cell never beats the diagonal run already
seen), and the extension loops then grow any diagonal block to the whole
string. -/

lemma mem_b2jList (b : List Char) (c : Char) (j : Nat) :
    j ∈ b2jList b c ↔ ¬ popular b c ∧ j < b.length ∧ b.getD j ' ' = c := by
  unfold b2jList
  split
  · rename_i h
    simp [h]
  · rename_i h
    simp [h, List.mem_filter, List.mem_range, beq_iff_eq, and_comm]

lemma b2jList_lt (b : List Char) (c : Char) (j : Nat) (hj : j ∈ b2jList b c) :
    j < b.length :=
  ((mem_b2jList b c j).mp hj).2.1

lemma rowJs_self (a : List Char) (i : Nat) :
    rowJs a a 0 a.length i = b2jList a (a.getD i ' ') := by
  unfold rowJs
  apply List.filter_eq_self.mpr
  intro j hj
  simp [b2jList_lt a _ j hj]

lemma runEnd_le (a : List Char) : ∀ i, runEnd a i ≤ i + 1 := by
  intro i
  induction i with
  | zero => rw [runEnd]; split <;> omega
  | succ i ih => rw [runEnd]; split <;> omega

lemma runEnd_pop (a : List Char) (i : Nat) (h : popular a (a.getD i ' ')) :
    runEnd a i = 0 := by
  cases i with
  | zero => rw [runEnd, if_pos h]
  | succ i => rw [runEnd, if_pos h]

lemma runEnd_nonpop_zero (a : List Char) (h : ¬ popular a (a.getD 0 ' ')) :
    runEnd a 0 = 1 := by
  rw [runEnd, if_neg h]

lemma runEnd_nonpop_succ (a : List Char) (i : Nat)
    (h : ¬ popular a (a.getD (i + 1) ' ')) :
    runEnd a (i + 1) = runEnd a i + 1 := by
  rw [runEnd, if_neg h]

lemma runEnd_nonpop_pos (a : List Char) (i : Nat)
    (h : ¬ popular a (a.getD i ' ')) : 1 ≤ runEnd a i := by
  cases i with
  | zero => rw [runEnd_nonpop_zero a h]
  | succ i => rw [runEnd_nonpop_succ a i h]; omega

/-- A row scan never updates the best when every cell value is dominated. -/
lemma rowBest_no_update (f : Nat → Nat) (m : Nat) :
    ∀ (js : List Nat) (bst : Nat × Nat × Nat),
      (∀ j ∈ js, kOf f j ≤ bst.2.2) →
      rowBest f m js bst = bst := by
  intro js
  induction js with
  | nil => intro bst _; rfl
  | cons j rest ih =>
    intro bst h
    have hj := h j (List.mem_cons_self _ _)
    unfold rowBest
    simp only [List.foldl_cons]
    rw [show bestStep f m bst j = bst from by unfold bestStep; rw [if_neg (by omega)]]
    exact ih bst (fun x hx => h x (List.mem_cons_of_mem _ hx))

/-- Defeq-tolerant introduction of the invariant for a diagonal best. -/
lemma selfInv_mk (a : List Char) (m : Nat) (f : Nat → Nat) (d bs : Nat)
    (h1 : d + bs ≤ a.length)
    (h2 : ∀ i', i' < m → runEnd a i' ≤ bs)
    (h3 : ∀ j, f j ≤ runEnd a j)
    (h4 : ∀ j, f j ≤ (if m = 0 then 0 else runEnd a (m - 1)))
    (h5 : m ≠ 0 → f (m - 1) = runEnd a (m - 1)) :
    selfInv a m (f, (d, d, bs)) :=
  ⟨rfl, h1, h2, h3, h4, h5⟩

/-- One row of the sweep on `(a, a)` preserves the diagonal invariant. -/
lemma selfInv_step (a : List Char) (m : Nat) (hm : m < a.length)
    (st : (Nat → Nat) × (Nat × Nat × Nat)) (inv : selfInv a m st) :
    selfInv a (m + 1)
      (dpRow st.1 (rowJs a a 0 a.length m),
       rowBest st.1 m (rowJs a a 0 a.length m) st.2) := by
  obtain ⟨f, bi, bj, bs⟩ := st
  obtain ⟨hdiag, hfit, hB, hC, hD, hE⟩ := inv
  simp only at hdiag hfit hB hC hD hE
  subst hdiag
  show selfInv a (m + 1)
    (dpRow f (rowJs a a 0 a.length m),
     rowBest f m (rowJs a a 0 a.length m) (bi, bi, bs))
  rw [rowJs_self]
  have hk0 : kOf f 0 = 1 := by unfold kOf; simp
  have hksucc : ∀ j', kOf f (j' + 1) = f j' + 1 := by
    intro j'
    unfold kOf
    simp
  by_cases hpop : popular a (a.getD m ' ')
  · -- popular character: empty index, zero row, zero run
    rw [show b2jList a (a.getD m ' ') = [] from by rw [b2jList, if_pos hpop]]
    have hrow : ∀ j, dpRow f [] j = 0 := by
      intro j
      simp [dpRow]
    have hrb : rowBest f m [] (bi, bi, bs) = (bi, bi, bs) := rfl
    rw [hrb]
    refine selfInv_mk a (m + 1) (dpRow f []) bi bs hfit ?_ ?_ ?_ ?_
    · intro i' hi'
      rcases Nat.lt_succ_iff_lt_or_eq.mp hi' with h | h
      · exact hB i' h
      · subst h
        rw [runEnd_pop a i' hpop]
        exact Nat.zero_le _
    · intro j
      rw [hrow j]
      exact Nat.zero_le _
    · intro j
      rw [hrow j]
      exact Nat.zero_le _
    · intro _
      rw [hrow, Nat.add_sub_cancel, runEnd_pop a m hpop]
  · -- non-popular character
    have hkle : ∀ j, a.getD j ' ' = a.getD m ' ' → kOf f j ≤ runEnd a j := by
      intro j hjc
      have hnp : ¬ popular a (a.getD j ' ') := by rw [hjc]; exact hpop
      cases j with
      | zero => rw [hk0, runEnd_nonpop_zero a hnp]
      | succ j' =>
        rw [hksucc, runEnd_nonpop_succ a j' hnp]
        exact Nat.add_le_add_right (hC j') 1
    have hruns : runEnd a m = (if m = 0 then 0 else runEnd a (m - 1)) + 1 := by
      cases m with
      | zero => rw [runEnd_nonpop_zero a hpop]; simp
      | succ m' =>
        rw [runEnd_nonpop_succ a m' hpop]
        simp
    have hkcap : ∀ j, kOf f j ≤ runEnd a m := by
      intro j
      cases j with
      | zero =>
        rw [hk0]
        exact runEnd_nonpop_pos a m hpop
      | succ j' =>
        rw [hksucc, hruns]
        have := hD j'
        omega
    have hkm : kOf f m = runEnd a m := by
      cases m with
      | zero => rw [hk0, runEnd_nonpop_zero a hpop]
      | succ m' =>
        have he := hE (Nat.succ_ne_zero m')
        simp only [Nat.add_sub_cancel] at he
        rw [hksucc, he, runEnd_nonpop_succ a m' hpop]
    have hmem : m ∈ b2jList a (a.getD m ' ') :=
      (mem_b2jList a _ m).mpr ⟨hpop, hm, rfl⟩
    -- split the index at the diagonal position
    have hq : (a.getD m ' ' == a.getD m ' ') = true := beq_self_eq_true _
    have hsplit : b2jList a (a.getD m ' ') =
        ((List.range' 0 m).filter (fun j => a.getD j ' ' == a.getD m ' ')) ++
        m :: ((List.range' (m + 1) (a.length - (m + 1))).filter
          (fun j => a.getD j ' ' == a.getD m ' ')) := by
      rw [b2jList, if_neg hpop, List.range_eq_range']
      rw [show List.range' 0 a.length = List.range' 0 m ++ List.range' m (a.length - m) from ?_]
      · rw [List.filter_append]
        congr 1
        rw [show a.length - m = (a.length - (m + 1)) + 1 from by omega]
        rw [List.range'_succ, List.filter_cons, hq]
        simp
      · have hr := List.range'_append_1 0 m (a.length - m)
        rw [show (a.length - m) + m = a.length from by omega] at hr
        simpa using hr.symm
    -- the cells strictly left of the diagonal never beat the running best
    have h1mem : ∀ j ∈ (List.range' 0 m).filter
        (fun j => a.getD j ' ' == a.getD m ' '), kOf f j ≤ bs := by
      intro j hj
      obtain ⟨hjr, hjc⟩ := List.mem_filter.mp hj
      have hjm : j < m := by
        have := List.mem_range'_1.mp hjr
        omega
      exact le_trans (hkle j (by simpa using hjc)) (hB j hjm)
    -- the diagonal cell yields a diagonal best dominating all runs so far
    obtain ⟨d2, bs2, hb2eq, hfit2, hB2⟩ :
        ∃ d2 bs2, bestStep f m (bi, bi, bs) m = (d2, d2, bs2) ∧
          d2 + bs2 ≤ a.length ∧ (∀ i' < m + 1, runEnd a i' ≤ bs2) := by
      unfold bestStep
      by_cases hlt : bs < kOf f m
      · rw [if_pos (by simpa using hlt)]
        refine ⟨m + 1 - kOf f m, kOf f m, rfl, ?_, ?_⟩
        · have hk1 : kOf f m ≤ m + 1 := hkm ▸ runEnd_le a m
          omega
        · intro i' hi'
          rcases Nat.lt_succ_iff_lt_or_eq.mp hi' with h | h
          · exact le_of_lt (lt_of_le_of_lt (hB i' h) hlt)
          · subst h
            rw [← hkm]
      · rw [if_neg (by simpa using hlt)]
        refine ⟨bi, bs, rfl, hfit, ?_⟩
        intro i' hi'
        rcases Nat.lt_succ_iff_lt_or_eq.mp hi' with h | h
        · exact hB i' h
        · subst h
          rw [← hkm]
          omega
    -- the cells right of the diagonal are capped by the diagonal run
    have h3mem : ∀ j ∈ (List.range' (m + 1) (a.length - (m + 1))).filter
        (fun j => a.getD j ' ' == a.getD m ' '), kOf f j ≤ bs2 := by
      intro j _
      exact le_trans (hkcap j) (hB2 m (Nat.lt_succ_self m))
    have hrb : rowBest f m (b2jList a (a.getD m ' ')) (bi, bi, bs) = (d2, d2, bs2) := by
      rw [hsplit]
      unfold rowBest
      rw [List.foldl_append]
      have hph1 := rowBest_no_update f m
        ((List.range' 0 m).filter (fun j => a.getD j ' ' == a.getD m ' '))
        (bi, bi, bs) h1mem
      unfold rowBest at hph1
      rw [hph1, List.foldl_cons, hb2eq]
      have hph3 := rowBest_no_update f m
        ((List.range' (m + 1) (a.length - (m + 1))).filter
          (fun j => a.getD j ' ' == a.getD m ' '))
        (d2, d2, bs2) h3mem
      unfold rowBest at hph3
      exact hph3
    rw [hrb]
    refine selfInv_mk a (m + 1) (dpRow f (b2jList a (a.getD m ' '))) d2 bs2 hfit2 hB2 ?_ ?_ ?_
    · intro j
      unfold dpRow
      split
      · rename_i hj
        exact hkle j ((mem_b2jList a _ j).mp hj).2.2
      · exact Nat.zero_le _
    · intro j
      rw [if_neg (Nat.succ_ne_zero m), Nat.add_sub_cancel]
      unfold dpRow
      split
      · exact hkcap j
      · exact Nat.zero_le _
    · intro _
      rw [Nat.add_sub_cancel]
      unfold dpRow
      rw [if_pos hmem]
      exact hkm

lemma dpAll_self (a : List Char) :
    ∀ m, m ≤ a.length →
      selfInv a m
        ((List.range' 0 m).foldl
          (fun st i => (dpRow st.1 (rowJs a a 0 a.length i),
                        rowBest st.1 i (rowJs a a 0 a.length i) st.2))
          (fun _ => 0, (0, 0, 0))) := by
  intro m
  induction m with
  | zero =>
    intro _
    exact selfInv_mk a 0 (fun _ => 0) 0 0 (Nat.zero_le _)
      (fun i' h => absurd h (Nat.not_lt_zero i'))
      (fun _ => Nat.zero_le _) (fun _ => by simp) (fun h => absurd rfl h)
  | succ m ih =>
    intro hm1
    have hsplit : List.range' 0 (m + 1) = List.range' 0 m ++ [m] := by
      rw [List.range'_1_concat]
      simp
    rw [hsplit, List.foldl_append, List.foldl_cons, List.foldl_nil]
    exact selfInv_step a m (Nat.lt_of_succ_le hm1) _ (ih (Nat.le_of_succ_le hm1))

lemma dpAll_self_best (a : List Char) :
    selfInv a a.length (dpAll a a 0 a.length 0 a.length) := by
  have h := dpAll_self a a.length (Nat.le_refl _)
  unfold dpAll
  simpa using h

lemma extendLAux_junk_id (a b : List Char) (alo blo : Nat) :
    ∀ (fuel : Nat) (bst : Nat × Nat × Nat),
      extendLAux a b alo blo true fuel bst = bst := by
  intro fuel
  induction fuel with
  | zero => intro bst; rfl
  | succ n _ =>
    intro bst
    obtain ⟨x, y, z⟩ := bst
    rw [extendLAux, if_neg (fun h => absurd h.2.2.1 (by simp [bjunk]))]

lemma extendRAux_junk_id (a b : List Char) (ahi bhi : Nat) :
    ∀ (fuel : Nat) (bst : Nat × Nat × Nat),
      extendRAux a b ahi bhi true fuel bst = bst := by
  intro fuel
  induction fuel with
  | zero => intro bst; rfl
  | succ n _ =>
    intro bst
    obtain ⟨x, y, z⟩ := bst
    rw [extendRAux, if_neg (fun h => absurd h.2.2.1 (by simp [bjunk]))]

/-- On the diagonal, the non-junk left extension walks all the way to 0. -/
lemma extendLAux_self (a : List Char) :
    ∀ (fuel d bs : Nat), d ≤ fuel →
      extendLAux a a 0 0 false fuel (d, d, bs) = (0, 0, bs + d) := by
  intro fuel
  induction fuel with
  | zero =>
    intro d bs hd
    have : d = 0 := Nat.le_zero.mp hd
    subst this
    rfl
  | succ n ih =>
    intro d bs hd
    cases d with
    | zero =>
      rw [extendLAux, if_neg (by simp)]
      simp
    | succ d' =>
      rw [extendLAux, if_pos ⟨Nat.succ_pos d', Nat.succ_pos d', rfl, rfl⟩]
      simp only [Nat.add_sub_cancel]
      have hrec := ih d' (bs + 1) (Nat.le_of_succ_le_succ hd)
      have heq : bs + 1 + d' = bs + (d' + 1) := by omega
      rw [heq] at hrec
      exact hrec

/-- On the diagonal, the non-junk right extension walks to the end. -/
lemma extendRAux_self (a : List Char) :
    ∀ (fuel s : Nat), a.length ≤ s + fuel → s ≤ a.length →
      extendRAux a a a.length a.length false fuel (0, 0, s) = (0, 0, a.length) := by
  intro fuel
  induction fuel with
  | zero =>
    intro s h1 h2
    have : s = a.length := by omega
    subst this
    rfl
  | succ n ih =>
    intro s h1 h2
    by_cases hs : s < a.length
    · rw [extendRAux, if_pos ⟨by omega, by omega, rfl, rfl⟩]
      exact ih (s + 1) (by omega) hs
    · have : s = a.length := by omega
      subst this
      rw [extendRAux, if_neg (by simp)]

/-- `find_longest_match` on `(a, a)` over the full window returns the
whole string as one block. -/
lemma find_longest_match_self (a : List Char) :
    find_longest_match a a 0 a.length 0 a.length = (0, 0, a.length) := by
  obtain ⟨hdiag, hfit, _, _, _, _⟩ := dpAll_self_best a
  obtain ⟨d, bs, hd2, hfit2⟩ : ∃ d bs,
      (dpAll a a 0 a.length 0 a.length).2 = (d, d, bs) ∧ d + bs ≤ a.length := by
    refine ⟨(dpAll a a 0 a.length 0 a.length).2.1,
            (dpAll a a 0 a.length 0 a.length).2.2.2, ?_, hfit⟩
    conv_lhs => rw [show (dpAll a a 0 a.length 0 a.length).2 =
      ((dpAll a a 0 a.length 0 a.length).2.1,
       (dpAll a a 0 a.length 0 a.length).2.2.1,
       (dpAll a a 0 a.length 0 a.length).2.2.2) from rfl]
    rw [← hdiag]
  unfold find_longest_match
  rw [hd2,
    show extendL a a 0 0 false (d, d, bs) = (0, 0, bs + d) from by
      unfold extendL
      exact extendLAux_self a d d bs (Nat.le_refl d),
    show extendR a a a.length a.length false (0, 0, bs + d) = (0, 0, a.length) from by
      unfold extendR
      exact extendRAux_self a a.length (bs + d) (by omega) (by omega),
    show extendL a a 0 0 true (0, 0, a.length) = (0, 0, a.length) from by
      unfold extendL
      exact extendLAux_junk_id a a 0 0 _ _,
    show extendR a a a.length a.length true (0, 0, a.length) = (0, 0, a.length) from by
      unfold extendR
      exact extendRAux_junk_id a a a.length a.length _ _]

lemma matchTotalAux_succ (a b : List Char) (alo ahi blo bhi fuel : Nat) :
    matchTotalAux a b alo ahi blo bhi (fuel + 1) =
      match find_longest_match a b alo ahi blo bhi with
      | (i, j, k) =>
        if k = 0 then 0
        else
          (if alo < i ∧ blo < j then matchTotalAux a b alo i blo j fuel else 0) +
          k +
          (if i + k < ahi ∧ j + k < bhi then
            matchTotalAux a b (i + k) ahi (j + k) bhi fuel else 0) := rfl

lemma matchTotal_self (a : List Char) : matchTotal a a = a.length := by
  unfold matchTotal
  rw [matchTotalAux_succ, find_longest_match_self]
  by_cases hn : a.length = 0
  · simp [hn]
  · simp only [hn, if_false]
    simp

/-- `SequenceMatcher(None, s, s).ratio() == 1.0` for every string. -/
lemma ratio_self (s : String) : ratioQ s s = 1 := by
  simp only [ratioQ, matchTotal_self]
  by_cases h : s.data.length + s.data.length = 0
  · rw [if_pos h]
  · rw [if_neg h]
    have h1 : 0 < s.data.length := by omega
    have h2 : (0 : ℚ) < (s.data.length : ℚ) := by exact_mod_cast h1
    have hne : ((s.data.length : ℚ) + (s.data.length : ℚ)) ≠ 0 :=
      ne_of_gt (by linarith)
    have h4 : ((s.length : ℚ)) ≠ 0 := by
      have hsl : s.length = s.data.length := rfl
      rw [hsl]
      exact ne_of_gt h2
    field_simp
    ring

/-! ## C5: the differ of a catalog against itself is empty -/

lemma is_track_similar_self (t : Track) : is_track_similar t t = true := by
  simp only [is_track_similar]
  rw [ratio_self]
  exact decide_eq_true (by norm_num)

/-- **C5** For every non-empty list `S` of track descriptors,
`find_missing_tracks S S = []`: every source track matches itself in the
destination, because the similarity of any non-empty string with itself
is 1.0, which meets the 0.85 threshold. -/
theorem C5_self_diff_empty (S : List Track) (_hS : S ≠ []) :
    find_missing_tracks S S = [] ∧ (∀ x : String, x ≠ "" → ratioQ x x = 1) := by
  constructor
  · have he : find_missing_tracks S S =
        S.filter (fun y => !(S.any (fun s => is_track_similar y s))) := by
      unfold find_missing_tracks
      simpa using find_missing_foldl S S []
    rw [he]
    apply List.filter_eq_nil_iff.mpr
    intro y hy
    simp only [Bool.not_eq_true', Bool.not_eq_false]
    exact List.any_eq_true.mpr ⟨y, hy, is_track_similar_self y⟩
  · intro x _
    exact ratio_self x

/-- Closed instance of C5. -/
theorem C5_witness :
    find_missing_tracks [⟨"x", "y", ""⟩] [(⟨"x", "y", ""⟩ : Track)] = [] ∧
    ratioQ "x" "x" = 1 :=
  ⟨(C5_self_diff_empty [⟨"x", "y", ""⟩] (by simp)).1,
   (C5_self_diff_empty [⟨"x", "y", ""⟩] (by simp)).2 "x" (by simp)⟩

/-! ## C3: similarity is not symmetric (claim corrected) -/

lemma ratioQ_tide_diet : ratioQ "tide" "diet" = 1/4 := by
  rw [ratioQ_eval "tide" "diet" 1 4 4 (by decide) (by decide) (by decide) (by norm_num)]
  norm_num

lemma ratioQ_diet_tide : ratioQ "diet" "tide" = 1/2 := by
  rw [ratioQ_eval "diet" "tide" 2 4 4 (by decide) (by decide) (by decide) (by norm_num)]
  norm_num

lemma ratioQ_key_td : ratioQ "x - tide" "x - diet" = 5/8 := by
  rw [ratioQ_eval "x - tide" "x - diet" 5 8 8 (by decide) (by decide) (by decide)
    (by norm_num)]
  norm_num

lemma ratioQ_key_dt : ratioQ "x - diet" "x - tide" = 3/4 := by
  rw [ratioQ_eval "x - diet" "x - tide" 6 8 8 (by decide) (by decide) (by decide)
    (by norm_num)]
  norm_num

/-- **C3 counterexample** `SequenceMatcher.ratio` is order-dependent:
`ratio("tide", "diet") = 1/4` but `ratio("diet", "tide") = 1/2` (the
greedy first longest block differs per direction), and with threshold 0.7
the corresponding tracks are similar in one order only. -/
theorem C3_cex :
    ratioQ "tide" "diet" ≠ ratioQ "diet" "tide" ∧
    is_track_similar ⟨"tide", "x", ""⟩ ⟨"diet", "x", ""⟩ (7/10) ≠
      is_track_similar ⟨"diet", "x", ""⟩ ⟨"tide", "x", ""⟩ (7/10) := by
  have hk1 : normalize_track_info "tide" "x" = "x - tide" := by decide
  have hk2 : normalize_track_info "diet" "x" = "x - diet" := by decide
  constructor
  · rw [ratioQ_tide_diet, ratioQ_diet_tide]
    norm_num
  · show decide ((7 : ℚ)/10 ≤ ratioQ (normalize_track_info "tide" "x")
        (normalize_track_info "diet" "x")) ≠
      decide ((7 : ℚ)/10 ≤ ratioQ (normalize_track_info "diet" "x")
        (normalize_track_info "tide" "x"))
    rw [hk1, hk2, ratioQ_key_td, ratioQ_key_dt]
    rw [decide_eq_false (by norm_num : ¬((7 : ℚ)/10 ≤ 5/8)),
        decide_eq_true (by norm_num : ((7 : ℚ)/10 ≤ 3/4))]
    simp

/-- **C3 (amended)** The similarity score is not symmetric in general:
`SequenceMatcher.ratio` depends on the argument order, and so does
`is_track_similar`.  Symmetry does hold on identical inputs, where the
score is 1, so a track is always similar to itself at any threshold at
most 1. -/
theorem C3_amended :
    (∀ x : String, ratioQ x x = 1) ∧
    (∀ (t : Track) (θ : ℚ), θ ≤ 1 → is_track_similar t t θ = true) ∧
    ¬(∀ a b : String, ratioQ a b = ratioQ b a) := by
  refine ⟨ratio_self, ?_, ?_⟩
  · intro t θ hθ
    simp only [is_track_similar]
    rw [ratio_self]
    exact decide_eq_true hθ
  · intro hall
    have h := hall "tide" "diet"
    rw [ratioQ_tide_diet, ratioQ_diet_tide] at h
    norm_num at h

/-- Closed instance of the amended C3. -/
theorem C3_witness :
    is_track_similar ⟨"a", "b", ""⟩ (⟨"a", "b", ""⟩ : Track) (17/20) = true :=
  C3_amended.2.1 ⟨"a", "b", ""⟩ (17/20) (by norm_num)

/-! ## C1: the candidate selector -/

lemma fbmStep_eq (tt ta : String) (bs : ℚ) (bm : Option Candidate) (c : Candidate) :
    fbmStep tt ta (bs, bm) c =
      if total_score tt ta c > bs ∧ total_score tt ta c > 3/5
      then (total_score tt ta c, some c) else (bs, bm) := rfl

/-- If no candidate both improves on the running best and clears the 0.6
cutoff, the fold leaves the state unchanged. -/
lemma fbm_fold_none (tt ta : String) :
    ∀ (cs : List Candidate) (bs : ℚ) (bm : Option Candidate),
      (∀ c ∈ cs, total_score tt ta c ≤ bs ∨ total_score tt ta c ≤ 3/5) →
      cs.foldl (fbmStep tt ta) (bs, bm) = (bs, bm) := by
  intro cs
  induction cs with
  | nil => intro bs bm _; rfl
  | cons c rest ih =>
    intro bs bm h
    have hc := h c (List.mem_cons_self _ _)
    rw [List.foldl_cons, fbmStep_eq, if_neg ?_]
    · exact ih bs bm (fun x hx => h x (List.mem_cons_of_mem _ hx))
    · rintro ⟨h1, h2⟩
      rcases hc with h' | h'
      · exact absurd h1 (not_lt.mpr h')
      · exact absurd h2 (not_lt.mpr h')

/-- If some candidate both improves on the initial best and clears the
cutoff, the fold ends on the earliest candidate attaining the maximum
eligible score. -/
lemma fbm_fold_some (tt ta : String) :
    ∀ (cs : List Candidate) (bs : ℚ) (bm : Option Candidate),
      (∃ c ∈ cs, total_score tt ta c > bs ∧ total_score tt ta c > 3/5) →
      ∃ (i : Nat) (h : i < cs.length),
        cs.foldl (fbmStep tt ta) (bs, bm) =
          (total_score tt ta (cs.get ⟨i, h⟩), some (cs.get ⟨i, h⟩)) ∧
        total_score tt ta (cs.get ⟨i, h⟩) > bs ∧
        total_score tt ta (cs.get ⟨i, h⟩) > 3/5 ∧
        (∀ (j : Nat) (hj : j < cs.length),
          total_score tt ta (cs.get ⟨j, hj⟩) ≤ total_score tt ta (cs.get ⟨i, h⟩) ∨
          total_score tt ta (cs.get ⟨j, hj⟩) ≤ 3/5) ∧
        (∀ (j : Nat) (hj : j < cs.length), j < i →
          total_score tt ta (cs.get ⟨j, hj⟩) < total_score tt ta (cs.get ⟨i, h⟩)) := by
  intro cs
  induction cs with
  | nil =>
    intro bs bm h
    simp at h
  | cons c rest ih =>
    intro bs bm hex
    rw [List.foldl_cons, fbmStep_eq]
    by_cases hc : total_score tt ta c > bs ∧ total_score tt ta c > 3/5
    · rw [if_pos hc]
      by_cases h2 : ∃ x ∈ rest, total_score tt ta x > total_score tt ta c ∧
          total_score tt ta x > 3/5
      · obtain ⟨i', hi', heq, hgt, hgt35, hmax, hearly⟩ :=
          ih (total_score tt ta c) (some c) h2
        refine ⟨i' + 1, Nat.succ_lt_succ hi', ?_, ?_, ?_, ?_, ?_⟩
        · simpa using heq
        · simpa using lt_trans hc.1 hgt
        · simpa using hgt35
        · intro j hj
          cases j with
          | zero =>
            simp only [List.get_cons_zero, List.get_cons_succ]
            exact Or.inl (le_of_lt hgt)
          | succ j' =>
            simpa using hmax j' (Nat.lt_of_succ_lt_succ hj)
        · intro j hj hji
          cases j with
          | zero =>
            simpa using hgt
          | succ j' =>
            simpa using hearly j' (Nat.lt_of_succ_lt_succ hj)
              (Nat.lt_of_succ_lt_succ hji)
      · push_neg at h2
        have hrest : ∀ x ∈ rest, total_score tt ta x ≤ total_score tt ta c ∨
            total_score tt ta x ≤ 3/5 := by
          intro x hx
          by_cases hxc : total_score tt ta x > total_score tt ta c
          · exact Or.inr (h2 x hx hxc)
          · exact Or.inl (not_lt.mp hxc)
        refine ⟨0, Nat.succ_pos _, ?_, ?_, ?_, ?_, ?_⟩
        · rw [fbm_fold_none tt ta rest _ _ hrest]
          simp
        · simpa using hc.1
        · simpa using hc.2
        · intro j hj
          cases j with
          | zero => simp
          | succ j' =>
            simpa using hrest (rest.get ⟨j', Nat.lt_of_succ_lt_succ hj⟩)
              (rest.get_mem _ _)
        · intro j hj hji
          exact absurd hji (Nat.not_lt_zero j)
    · rw [if_neg hc]
      obtain ⟨c₀, hc₀mem, hc₀⟩ := hex
      have hc₀rest : c₀ ∈ rest := by
        rcases List.mem_cons.mp hc₀mem with h | h
        · subst h
          exact absurd hc₀ hc
        · exact h
      obtain ⟨i', hi', heq, hgt, hgt35, hmax, hearly⟩ :=
        ih bs bm ⟨c₀, hc₀rest, hc₀⟩
      have hcle : total_score tt ta c ≤ bs ∨ total_score tt ta c ≤ 3/5 := by
        by_cases hcb : total_score tt ta c > bs
        · by_cases hc35 : total_score tt ta c > 3/5
          · exact absurd ⟨hcb, hc35⟩ hc
          · exact Or.inr (not_lt.mp hc35)
        · exact Or.inl (not_lt.mp hcb)
      refine ⟨i' + 1, Nat.succ_lt_succ hi', ?_, ?_, ?_, ?_, ?_⟩
      · simpa using heq
      · simpa using hgt
      · simpa using hgt35
      · intro j hj
        cases j with
        | zero =>
          simp only [List.get_cons_zero, List.get_cons_succ]
          rcases hcle with h | h
          · exact Or.inl (le_of_lt (lt_of_le_of_lt h hgt))
          · exact Or.inr h
        | succ j' =>
          simpa using hmax j' (Nat.lt_of_succ_lt_succ hj)
      · intro j hj hji
        cases j with
        | zero =>
          simp only [List.get_cons_zero, List.get_cons_succ]
          rcases hcle with h | h
          · exact lt_of_le_of_lt h hgt
          · exact lt_of_le_of_lt h hgt35
        | succ j' =>
          simpa using hearly j' (Nat.lt_of_succ_lt_succ hj)
            (Nat.lt_of_succ_lt_succ hji)

/-- **C1** `_find_best_match` scores every candidate as
`0.7 * similarity(titles) + 0.3 * (max similarity over the candidate's
artists)` (0 when the candidate lists no artists, via the `max` default);
it returns `None` exactly when no candidate's score strictly exceeds 0.6
(a score of exactly 0.6 is rejected), and otherwise returns the earliest
candidate attaining the maximum score: every candidate scores at most the
returned one's score, every earlier candidate scores strictly less. -/
theorem C1_find_best_match (target_title target_artist : String)
    (candidates : List Candidate) :
    (∀ c : Candidate, total_score target_title target_artist c =
        7/10 * ratioQ (pyLower target_title) (pyLower c.name) +
        3/10 * pymax ((c.artists.map pyLower).map
          (fun artist => ratioQ (pyLower target_artist) artist)) 0) ∧
    (find_best_match target_title target_artist candidates = none ↔
      ∀ c ∈ candidates, total_score target_title target_artist c ≤ 3/5) ∧
    (∀ c, find_best_match target_title target_artist candidates = some c →
      total_score target_title target_artist c > 3/5 ∧
      ∃ (i : Nat) (h : i < candidates.length),
        candidates.get ⟨i, h⟩ = c ∧
        (∀ (j : Nat) (hj : j < candidates.length),
          total_score target_title target_artist (candidates.get ⟨j, hj⟩) ≤
            total_score target_title target_artist c) ∧
        (∀ (j : Nat) (hj : j < candidates.length), j < i →
          total_score target_title target_artist (candidates.get ⟨j, hj⟩) <
            total_score target_title target_artist c)) := by
  refine ⟨?_, ⟨?_, ?_⟩, ?_⟩
  · intro c
    simp only [total_score]
    ring
  · intro hnone
    by_contra hcon
    push_neg at hcon
    obtain ⟨c, hcmem, hcgt⟩ := hcon
    obtain ⟨i, hi, heq, _⟩ := fbm_fold_some target_title target_artist candidates 0 none
      ⟨c, hcmem, lt_trans (by norm_num) hcgt, hcgt⟩
    unfold find_best_match at hnone
    rw [heq] at hnone
    simp at hnone
  · intro hall
    unfold find_best_match
    rw [fbm_fold_none target_title target_artist candidates 0 none
      (fun c hc => Or.inr (hall c hc))]
  · intro c hsome
    by_cases hex : ∃ x ∈ candidates,
        total_score target_title target_artist x > 0 ∧
        total_score target_title target_artist x > 3/5
    · obtain ⟨i, hi, heq, _, hgt35, hmax, hearly⟩ :=
        fbm_fold_some target_title target_artist candidates 0 none hex
      unfold find_best_match at hsome
      rw [heq] at hsome
      simp only [Option.some.injEq] at hsome
      subst hsome
      refine ⟨hgt35, i, hi, rfl, ?_, hearly⟩
      intro j hj
      rcases hmax j hj with h | h
      · exact h
      · exact le_trans h (le_of_lt hgt35)
    · push_neg at hex
      have hnone : find_best_match target_title target_artist candidates = none := by
        unfold find_best_match
        rw [fbm_fold_none target_title target_artist candidates 0 none ?_]
        intro x hx
        rcases le_or_lt (total_score target_title target_artist x) 0 with h | h
        · exact Or.inl h
        · exact Or.inr (hex x hx h)
      rw [hnone] at hsome
      exact absurd hsome (by simp)

/-- Closed instance of C1: with no candidates the selector returns absent. -/
theorem C1_witness : find_best_match "a" "b" [] = none :=
  (C1_find_best_match "a" "b" []).2.1.mpr (fun c hc => absurd hc (List.not_mem_nil c))

end YM2S
